import Mathlib

/-!
Verification of the esm-build-imports build tool.

This file embeds the build driver of src/index.mjs as a pure function over an
explicit file-system value, and (separately) the reference-level propagation
of the second CLI variant, whose driver file is absent from the sources.

External collaborators are modelled as follows: node-style POSIX path
arithmetic is implemented concretely; the WHATWG URL constructor is modelled
by jsNewURL, which fails exactly on strings that lack a scheme (as every
relative or absolute specifier does); the parse-imports library, the
minimatch matcher and the md5 digest of node-crypto are kept as parameters
of the model, so every theorem quantifies over their behaviour unless it
instantiates them concretely.
-/

set_option autoImplicit false

namespace EsmBuild

/-! ### POSIX path model (node path module, restricted to the shapes the tool uses) -/

/-- Split a character list at each occurrence of a separator character; a
kernel-computable replacement for the splitOn of the standard library. -/
def splitCharsAux (sep : Char) : List Char → List Char → List String
  | [], acc => [String.mk acc.reverse]
  | c :: rest, acc =>
      if c = sep then String.mk acc.reverse :: splitCharsAux sep rest []
      else splitCharsAux sep rest (c :: acc)

/-- Split a string at a separator character. -/
def strSplitOn (sep : Char) (s : String) : List String := splitCharsAux sep s.toList []

/-- Whether the first character list leads the second. -/
def charsLead : List Char → List Char → Bool
  | [], _ => true
  | _ :: _, [] => false
  | a :: as, b :: bs => a == b && charsLead as bs

/-- Kernel-computable startsWith. -/
def strStarts (s pre : String) : Bool := charsLead pre.toList s.toList

/-- ASCII lower-casing of one character. -/
def lowerChar (c : Char) : Char :=
  if 'A' ≤ c ∧ c ≤ 'Z' then Char.ofNat (c.toNat + 32) else c

/-- Kernel-computable toLower. -/
def strToLower (s : String) : String := String.mk (s.toList.map lowerChar)

/-- Split a path string on the slash character. -/
def splitPath (s : String) : List String := strSplitOn '/' s

/-- Normalise path components, resolving dot and dot-dot segments against an
accumulator of already emitted components (kept in reverse). -/
def normComps : List String → List String → List String
  | [], acc => acc.reverse
  | "" :: rest, acc => normComps rest acc
  | "." :: rest, acc => normComps rest acc
  | ".." :: rest, acc => normComps rest (acc.drop 1)
  | c :: rest, acc => normComps rest (c :: acc)

/-- Join components with slashes. -/
def joinComps (cs : List String) : String := String.intercalate "/" cs

/-- Models path.resolve for an absolute base directory. -/
def pathResolve (base rel : String) : String :=
  if strStarts rel "/" then "/" ++ joinComps (normComps (splitPath rel) [])
  else "/" ++ joinComps (normComps (splitPath (base ++ "/" ++ rel)) [])

/-- Drop the longest common component run of two component lists. -/
def dropCommon : List String → List String → (List String × List String)
  | a :: as, b :: bs => if a = b then dropCommon as bs else (a :: as, b :: bs)
  | as, bs => (as, bs)

/-- Models path.relative for absolute POSIX paths. -/
def pathRelative (fromP toP : String) : String :=
  let f := normComps (splitPath fromP) []
  let t := normComps (splitPath toP) []
  let p := dropCommon f t
  joinComps (p.1.map (fun _ => "..") ++ p.2)

/-- Models path.dirname for the path shapes this model handles. -/
def pathDirname (p : String) : String :=
  let cs := splitPath p
  let ini := cs.dropLast
  if strStarts p "/" then
    match ini with
    | [] => "/"
    | [""] => "/"
    | _ => joinComps ini
  else
    match ini with
    | [] => "."
    | _ => joinComps ini

/-- Models path.extname: the suffix of the last path component starting at its
last dot, empty when there is no dot or the dot is the leading character. -/
def pathExtname (p : String) : String :=
  let base := ((splitPath p).getLast?).getD ""
  let cs := base.toList
  let tl := List.reverse ((cs.reverse).takeWhile (fun c => c ≠ '.'))
  if tl.length + 1 ≥ cs.length then ""
  else String.mk ('.' :: tl)

/-! ### WHATWG URL model (node global URL constructor) -/

/-- Characters allowed in a URL scheme after the leading letter. -/
def isSchemeChar (c : Char) : Bool := c.isAlphanum || c == '+' || c == '-' || c == '.'

/-- Whether the WHATWG URL constructor accepts the string without a base: it
must begin with an alphabetic scheme terminated by a colon. Relative and
absolute import specifiers never carry a scheme. -/
def hasUrlScheme (s : String) : Bool :=
  match s.toList with
  | [] => false
  | c :: rest =>
      c.isAlpha && (rest.takeWhile (fun d => d ≠ ':')).all isSchemeChar
        && rest.any (fun d => d = ':')

/-- The parts of a parsed URL that src/index.mjs consumes. -/
structure UrlRec where
  pathname : String
  query : String
deriving DecidableEq, Repr

/-- Models new URL with no base argument: a parse when a scheme is present,
none (the thrown TypeError) otherwise. -/
def jsNewURL (s : String) : Option UrlRec :=
  if hasUrlScheme s then
    let afterScheme := (s.toList.dropWhile (fun d => d ≠ ':')).drop 1
    let pathPart := afterScheme.takeWhile (fun d => d ≠ '?')
    let queryPart := (afterScheme.dropWhile (fun d => d ≠ '?')).drop 1
    some ⟨String.mk pathPart, String.mk queryPart⟩
  else none

/-- Models URLSearchParams get on a query string. -/
def searchParamGet (query key : String) : Option String :=
  ((strSplitOn '&' query).filterMap (fun kv =>
    match strSplitOn '=' kv with
    | k :: rest => if k = key then some (String.intercalate "=" rest) else none
    | [] => none)).head?

/-! ### Data model of the build -/

/-- Specifier kinds as classified by the parse-imports library. -/
inductive SpecType
  | relative
  | absolute
  | package
  | builtin
  | invalid
deriving DecidableEq, Repr

/-- The moduleSpecifier record of a parsed import: its kind and its constant
string value when there is one (undefined otherwise). -/
structure ModSpecifier where
  type : SpecType
  value : Option String
deriving DecidableEq, Repr

/-- One parsed import statement: the span of the statement in the source text
and its module specifier. -/
structure ImportStmt where
  startIndex : Nat
  endIndex : Nat
  moduleSpecifier : ModSpecifier
deriving DecidableEq, Repr

/-- The external collaborators of the build: the parse-imports parser, the
minimatch glob matcher, and the md5 hex digest of node-crypto. -/
structure Externals where
  parseImports : String → List ImportStmt
  minimatch : String → String → Bool
  md5 : String → String

/-- The parsed build configuration file. -/
structure Config where
  sourcedir : String
  outputdir : Option String
  excludes : Option (List String)
  cleanOutput : Bool
deriving DecidableEq, Repr

/-- One build invocation: the configuration (none when the config file is
missing), the clean flag from argv, the existing directories, the file
contents keyed by absolute path, and the traversal order produced by the
recursive directory walk. -/
structure BuildInput where
  config : Option Config
  argvClean : Bool
  dirs : List String
  fs : List (String × String)
  files : List String

/-- JavaScript truthiness of an optional string: undefined and the empty
string are falsy. -/
def truthyStr : Option String → Bool
  | none => false
  | some s => s ≠ ""

/-- Read a file from the modelled file system. -/
def fsRead (fs : List (String × String)) (p : String) : Option String :=
  (fs.find? (fun e => e.1 == p)).map (fun e => e.2)

/-- Whether a path exists, for the promisified access checks. -/
def pathExists (inp : BuildInput) (p : String) : Bool :=
  inp.dirs.any (fun d => d == p) || inp.fs.any (fun e => e.1 == p)

/-- Lines 31-38 of src/index.mjs: first matching exclude pattern wins. -/
def matchExcludes (mm : String → String → Bool) (file : String) (excludes : List String) : Bool :=
  excludes.any (fun pattern => mm file pattern)

/-- Lines 25-29 of src/index.mjs: the md5 hex digest of the file data. -/
def hashFile (md5 : String → String) (fileData : String) : String := md5 fileData

/-- The runtime errors the build can abort with. -/
inductive JsError
  | accessError (p : String)
  | readError (p : String)
  | invalidUrl (u : String)
  | referenceError (nm : String)
deriving DecidableEq, Repr

/-- Observable effects of one run: copies (source, destination, content),
writes (destination, content), the successfully read paths, the paths handed
to the parser, the hashed files as (relative path checked against the
excludes, absolute path), and whether the output directory was removed. -/
structure RunLog where
  copies : List (String × String × String)
  writes : List (String × String)
  readPaths : List String
  parsedPaths : List String
  hashed : List (String × String)
  removedOutput : Bool
deriving DecidableEq, Repr

/-- The empty run log. -/
def RunLog.init : RunLog := ⟨[], [], [], [], [], false⟩

/-- One entry pushed at lines 185-190 of src/index.mjs. -/
structure UpdateImp where
  file : String
  filePath : String
  hash : String
  importLine : ImportStmt
deriving DecidableEq, Repr

/-- One entry of the updatedFiles collection, lines 178-183. -/
structure UpdateEntry where
  file : String
  filePath : String
  imps : List UpdateImp
deriving DecidableEq, Repr

/-- State threaded through the two loops of build. -/
structure LoopState where
  log : RunLog
  updated : List UpdateEntry
  error : Option JsError
deriving DecidableEq, Repr

/-- Look up the updatedFiles entry keyed by a file path. -/
def findEntry (l : List UpdateEntry) (file : String) : Option UpdateEntry :=
  l.find? (fun e => e.file == file)

/-- Lines 177-191: create the entry for the file on first need, then push the
record for this import. -/
def pushImp (l : List UpdateEntry) (file filePath : String) (imp : UpdateImp) : List UpdateEntry :=
  if (findEntry l file).isSome then
    l.map (fun e => if e.file == file then { e with imps := e.imps ++ [imp] } else e)
  else l ++ [{ file := file, filePath := filePath, imps := [imp] }]

/-- Lines 163-191 of src/index.mjs, after the URL parse: derive the import
file and old hash from the parsed URL (undefined parses give the empty path
and a null hash), resolve the target, skip excluded targets, read and hash
the target, and record it for update when the old hash differs. -/
def contImp (ext : Externals) (excludes : List String) (fs : List (String × String))
    (file absoluteFilePath : String) (st : LoopState) (importLine : ImportStmt)
    (parsedUrl : Option UrlRec) : LoopState :=
  let impFile := match parsedUrl with | some p => p.pathname | none => ""
  let oldHash := match parsedUrl with | some p => searchParamGet p.query "v" | none => none
  let absolutePath := pathResolve absoluteFilePath impFile
  let relativePath := pathRelative absoluteFilePath absolutePath
  if matchExcludes ext.minimatch relativePath excludes then st
  else
    match fsRead fs absolutePath with
    | none => { st with error := some (JsError.readError absolutePath) }
    | some fileData =>
      let h := hashFile ext.md5 fileData
      let log := { st.log with
        readPaths := st.log.readPaths ++ [absolutePath]
        hashed := st.log.hashed ++ [(relativePath, absolutePath)] }
      if oldHash ≠ some h then
        { st with
          log := log
          updated := pushImp st.updated file absoluteFilePath
            { file := impFile, filePath := absolutePath, hash := h, importLine := importLine } }
      else { st with log := log }

/-- Lines 151-209 of src/index.mjs: one iteration of the import loop. Bare
and builtin specifiers are skipped; a falsy specifier value leaves the URL
unparsed; otherwise new URL is called, which throws on every relative or
absolute specifier since they carry no scheme. -/
def processImp (ext : Externals) (excludes : List String) (fs : List (String × String))
    (file absoluteFilePath : String) (st : LoopState) (importLine : ImportStmt) : LoopState :=
  if st.error.isSome then st else
  let moduleType := importLine.moduleSpecifier.type
  if moduleType ≠ SpecType.relative ∧ moduleType ≠ SpecType.absolute then st
  else
    match importLine.moduleSpecifier.value with
    | none => contImp ext excludes fs file absoluteFilePath st importLine none
    | some u =>
      if u = "" then contImp ext excludes fs file absoluteFilePath st importLine none
      else
        match jsNewURL u with
        | none => { st with error := some (JsError.invalidUrl u) }
        | some p => contImp ext excludes fs file absoluteFilePath st importLine (some p)

/-- Lines 98-102 of src/index.mjs: the outputFile helper copies the file to
the output path (a byte-identical copy; a missing source fails the copy). -/
def outputFileFn (fs : List (String × String)) (st : LoopState)
    (file outputPath : String) : LoopState :=
  match fsRead fs file with
  | none => { st with error := some (JsError.readError file) }
  | some c => { st with log := { st.log with copies := st.log.copies ++ [(file, outputPath, c)] } }

/-- Lines 109-223 of src/index.mjs: one iteration of the file loop. Files
that are not js files or that match an exclude pattern are copied unmodified;
js files are read and parsed; files without parsed entries are copied
unmodified; otherwise the import loop runs. The write of the rewritten text
inside this loop is commented out in the source, so nothing is emitted here
for files with parsed entries. -/
def processFile (ext : Externals) (cfg : Config) (inp : BuildInput)
    (st : LoopState) (file : String) : LoopState :=
  if st.error.isSome then st else
  let excludes := cfg.excludes.getD []
  let useOutputDir := truthyStr cfg.outputdir
  let relativeFile := pathRelative cfg.sourcedir file
  let filePath := pathDirname relativeFile
  let absoluteFilePath := pathResolve cfg.sourcedir filePath
  let outputPath := pathResolve (cfg.outputdir.getD "") relativeFile
  if (strToLower (pathExtname file) != ".js") || matchExcludes ext.minimatch file excludes then
    if useOutputDir then outputFileFn inp.fs st file outputPath
    else st
  else
    match fsRead inp.fs file with
    | none => { st with error := some (JsError.readError file) }
    | some codeData =>
      let st1 := { st with log := { st.log with
        readPaths := st.log.readPaths ++ [file]
        parsedPaths := st.log.parsedPaths ++ [file] } }
      let imps := ext.parseImports codeData
      if imps.length = 0 then
        if useOutputDir then outputFileFn inp.fs st1 file outputPath
        else st1
      else
        imps.foldl (processImp ext excludes inp.fs file absoluteFilePath) st1

/-- JS substring over the character list, clamped to the text length. -/
def jsSubstring (s : String) (a b : Nat) : String := String.mk ((s.toList.take b).drop a)

/-- Lines 228-260 of src/index.mjs: one iteration of the update loop. The
body of the inner loop reads the identifiers importUrl, importFile and hash
at line 241, which are block-scoped to the first loop and hence not in scope
here, so the first import raises a ReferenceError; with no recorded imports
and an output directory configured, line 254 reads the likewise out-of-scope
outputPath. Only with no recorded imports and no output directory does the
unchanged text get written back. -/
def updateFileStep (useOutputDir : Bool) (fs : List (String × String))
    (st : LoopState) (u : UpdateEntry) : LoopState :=
  if st.error.isSome then st else
  match fsRead fs u.file with
  | none => { st with error := some (JsError.readError u.file) }
  | some codeData =>
    let st1 := { st with log := { st.log with readPaths := st.log.readPaths ++ [u.file] } }
    match u.imps with
    | _ :: _ => { st1 with error := some (JsError.referenceError "importUrl") }
    | [] =>
      if useOutputDir then { st1 with error := some (JsError.referenceError "outputPath") }
      else { st1 with log := { st1.log with writes := st1.log.writes ++ [(u.file, codeData)] } }

/-- The outcome of one build run: the observable effects and the error the
run aborted with, if any. -/
structure BuildOutcome where
  log : RunLog
  error : Option JsError
deriving DecidableEq, Repr

/-- Lines 59-267 of src/index.mjs: the build driver. The promisified access
calls reject on a missing path, so a missing config file or missing source
directory aborts the run before any removal, copy or write (the error
branches at lines 66-69 and 75-78 are unreachable dead code, but the abort
happens at the same program points). Line 85 re-checks the source directory
rather than the output directory, so destinationExists is always true here. -/
def build (ext : Externals) (inp : BuildInput) : BuildOutcome :=
  match inp.config with
  | none => ⟨RunLog.init, some (JsError.accessError "configFile")⟩
  | some cfg =>
    if pathExists inp cfg.sourcedir = false then
      ⟨RunLog.init, some (JsError.accessError cfg.sourcedir)⟩
    else
      let useOutputDir := truthyStr cfg.outputdir
      let destinationExists := pathExists inp cfg.sourcedir
      let removed := useOutputDir && destinationExists && (inp.argvClean || cfg.cleanOutput)
      let log0 : RunLog := { RunLog.init with removedOutput := removed }
      let st0 : LoopState := ⟨log0, [], none⟩
      let st1 := inp.files.foldl (processFile ext cfg inp) st0
      match st1.error with
      | some e => ⟨st1.log, some e⟩
      | none =>
        let st2 := st1.updated.foldl (updateFileStep useOutputDir inp.fs) st1
        ⟨st2.log, st2.error⟩

/-- Relation between loop states: the later state only ever adds copies whose
content is the byte-identical source content, writes whose content is the
byte-identical stored content of the written path, parsed paths that are
non-excluded js files, and hashed entries whose checked relative path does
not match the excludes. This captures that the build never emits modified
bytes and never hashes or parses an excluded path. -/
def SafeStep (mm : String → String → Bool) (ex : List String)
    (fs : List (String × String)) (st r : LoopState) : Prop :=
  (∀ e ∈ r.log.copies, e ∈ st.log.copies ∨ fsRead fs e.1 = some e.2.2) ∧
  (∀ e ∈ r.log.writes, e ∈ st.log.writes ∨ fsRead fs e.1 = some e.2) ∧
  (∀ p ∈ r.log.parsedPaths, p ∈ st.log.parsedPaths ∨
    (strToLower (pathExtname p) = ".js" ∧ matchExcludes mm p ex = false)) ∧
  (∀ e ∈ r.log.hashed, e ∈ st.log.hashed ∨ matchExcludes mm e.1 ex = false)

/-- The parse-imports library classifies a specifier as relative or absolute
only from its constant string value, which then starts with a dot segment or
a slash: it is a non-empty string carrying no URL scheme. -/
def GoodParser (pi : String → List ImportStmt) : Prop :=
  ∀ (s : String) (imp : ImportStmt), imp ∈ pi s →
    (imp.moduleSpecifier.type = SpecType.relative ∨
      imp.moduleSpecifier.type = SpecType.absolute) →
    ∃ v, imp.moduleSpecifier.value = some v ∧ v ≠ "" ∧ hasUrlScheme v = false

/-! ### Concrete example instantiations used by the claim theorems -/

/-- Concrete parse results for the example sources, matching what the
parse-imports library yields on them (statement spans and constant relative
specifiers). -/
def exParse : String → List ImportStmt := fun s =>
  if s = "import \"./b.js\";" then
    [⟨0, 16, ⟨SpecType.relative, some "./b.js"⟩⟩]
  else if s = "import \"./c.js\";" then
    [⟨0, 16, ⟨SpecType.relative, some "./c.js"⟩⟩]
  else if s = "import \"./b.js\";import \"./longname.js\";" then
    [⟨0, 16, ⟨SpecType.relative, some "./b.js"⟩⟩,
     ⟨16, 39, ⟨SpecType.relative, some "./longname.js"⟩⟩]
  else if s = "import \"./b.js?v=deadbeef\";" then
    [⟨0, 27, ⟨SpecType.relative, some "./b.js?v=deadbeef"⟩⟩]
  else if s = "import \"./v/x.js\";" then
    [⟨0, 18, ⟨SpecType.relative, some "./v/x.js"⟩⟩]
  else if s = "import \"./b.js?v=0123456789abcdef0123456789abcdef\";" then
    [⟨0, 51, ⟨SpecType.relative, some "./b.js?v=0123456789abcdef0123456789abcdef"⟩⟩]
  else []

/-- A concrete glob matcher: the pattern v/** matches paths under v/. -/
def exMm : String → String → Bool := fun f p =>
  if p = "v/**" then strStarts f "v/" else false

/-- A concrete stand-in digest for node-crypto md5 (its value never matters:
the build aborts before hashing anything). -/
def exMd5 : String → String := fun _ => "0123456789abcdef0123456789abcdef"

/-- The concrete externals bundle for the examples. -/
def exExt : Externals := ⟨exParse, exMm, exMd5⟩

/-- Configuration with an output directory and no excludes. -/
def exCfgOut : Config := ⟨"/src", some "/out", none, false⟩

/-- Configuration with an output directory and the exclude pattern v/**. -/
def exCfgExcl : Config := ⟨"/src", some "/out", some ["v/**"], false⟩

/-- Configuration writing in place (no output directory). -/
def exCfgInPlace : Config := ⟨"/src", none, none, false⟩

/-- C1 example: a imports b, b imports c, so b's final output would differ
from its source, and the hash recorded for the a-to-b edge would have to be
of b's rewritten content for the claim to hold. -/
def c1Inp : BuildInput :=
  ⟨some exCfgOut, false, ["/src", "/out"],
   [("/src/a.js", "import \"./b.js\";"), ("/src/b.js", "import \"./c.js\";"),
    ("/src/c.js", "x")],
   ["/src/a.js", "/src/b.js", "/src/c.js"]⟩

/-- C2 example: one file with two imports whose rewritten specifiers would
have different lengths. -/
def c2Inp : BuildInput :=
  ⟨some exCfgOut, false, ["/src", "/out"],
   [("/src/d.js", "import \"./b.js\";import \"./longname.js\";"),
    ("/src/b.js", "x"), ("/src/longname.js", "y")],
   ["/src/d.js", "/src/b.js", "/src/longname.js"]⟩

/-- A recorded update entry for the C2 example file, as the first pass would
have recorded it had it not aborted: both imports of d.js in source order. -/
def c2Entry : UpdateEntry :=
  ⟨"/src/d.js", "/src",
   [⟨"./b.js", "/src/b.js", "0123456789abcdef0123456789abcdef",
     ⟨0, 16, ⟨SpecType.relative, some "./b.js"⟩⟩⟩,
    ⟨"./longname.js", "/src/longname.js", "0123456789abcdef0123456789abcdef",
     ⟨16, 39, ⟨SpecType.relative, some "./longname.js"⟩⟩⟩]⟩

/-- C4 example: an import that already carries a version query. -/
def c4Inp : BuildInput :=
  ⟨some exCfgOut, false, ["/src", "/out"],
   [("/src/e.js", "import \"./b.js?v=deadbeef\";"), ("/src/b.js", "x")],
   ["/src/e.js", "/src/b.js"]⟩

/-- C5 example: a module whose only import edge resolves into the excluded
directory v, while the target file exists. -/
def c5Inp : BuildInput :=
  ⟨some exCfgExcl, false, ["/src", "/out"],
   [("/src/a.js", "import \"./v/x.js\";"), ("/src/v/x.js", "vx")],
   ["/src/a.js", "/src/v/x.js"]⟩

/-- C6 witness input: an excluded file inside v plus an ordinary text file. -/
def c6Inp : BuildInput :=
  ⟨some exCfgExcl, false, ["/src", "/out"],
   [("/src/v/x.js", "vx"), ("/src/a.txt", "hello")],
   ["/src/v/x.js", "/src/a.txt"]⟩

/-- C7 example: the input already carries the version query a previous run
would have produced (the digest of the target under the modelled md5), so a
converging second run would leave it unchanged. -/
def c7Inp : BuildInput :=
  ⟨some exCfgOut, false, ["/src", "/out"],
   [("/src/f.js", "import \"./b.js?v=0123456789abcdef0123456789abcdef\";"),
    ("/src/b.js", "x")],
   ["/src/f.js", "/src/b.js"]⟩

/-- C8 example: in-place mode with a single relative import, the very shape
the WHATWG URL constructor cannot parse without a base. -/
def c8Inp : BuildInput :=
  ⟨some exCfgInPlace, false, ["/src"],
   [("/src/a.js", "import \"./b.js\";"), ("/src/b.js", "x")],
   ["/src/a.js", "/src/b.js"]⟩

/-- C9 witness input: missing config file. -/
def c9Inp : BuildInput :=
  ⟨none, false, ["/src"], [("/src/a.js", "x")], ["/src/a.js"]⟩

/-- C10 example: a js file with an import ordered before a text file. -/
def c10Inp : BuildInput :=
  ⟨some exCfgOut, false, ["/src", "/out"],
   [("/src/a.js", "import \"./b.js\";"), ("/src/b.js", "x"), ("/src/z.txt", "hello")],
   ["/src/a.js", "/src/b.js", "/src/z.txt"]⟩

/-- C10 witness input: a completing run with a text file and an import-free
js file. -/
def c10WInp : BuildInput :=
  ⟨some exCfgOut, false, ["/src", "/out"],
   [("/src/z.txt", "hello"), ("/src/b.js", "x")],
   ["/src/z.txt", "/src/b.js"]⟩

/-- The output path of a file: output root joined with the path relative to
the source root, as computed at line 114 of src/index.mjs. -/
def outPathOf (cfg : Config) (f : String) : String :=
  pathResolve (cfg.outputdir.getD "") (pathRelative cfg.sourcedir f)

/-- What a completed run guarantees for one traversed file: a file that is
not a js file or is excluded has been copied byte-identically when an output
directory is configured; a non-excluded js file was readable, and when its
parse yields no entries it likewise has been copied byte-identically. -/
def CompSpec (ext : Externals) (cfg : Config) (inp : BuildInput)
    (lg : RunLog) (f : String) : Prop :=
  (((strToLower (pathExtname f) != ".js")
      || matchExcludes ext.minimatch f (cfg.excludes.getD [])) = true →
    truthyStr cfg.outputdir = true →
    ∃ c, fsRead inp.fs f = some c ∧ (f, outPathOf cfg f, c) ∈ lg.copies) ∧
  (((strToLower (pathExtname f) != ".js")
      || matchExcludes ext.minimatch f (cfg.excludes.getD [])) = false →
    ∃ c, fsRead inp.fs f = some c ∧
      (ext.parseImports c = [] → truthyStr cfg.outputdir = true →
        (f, outPathOf cfg f, c) ∈ lg.copies))

namespace RefLevel

/-- Modelled from the spec: the module graph of §4.3-§4.4. The driver file of
the second CLI variant, which builds the graph over ProcessFile descriptors
and runs the reference-level propagation, is absent from src; only the
reflevel and references fields of ProcessFile appear in src/unnamed/part_000.
A module is a vertex; imps m lists the modules that m imports. -/
structure Graph (n : Nat) where
  imps : Fin n → List (Fin n)

/-- Modelled from the spec: visiting a module sets its level to the max of
its current level and the incoming level (§4.4). -/
def bump {n : Nat} (m : Fin n) (incoming : Nat) (lvl : Fin n → Nat) : Fin n → Nat :=
  fun v => if v = m then max (lvl v) incoming else lvl v

mutual

/-- Modelled from the spec: the depth-first propagation of §4.4 — visiting a
module sets its level to the max of its current level and the incoming level,
then recurses into each module it imports with the incoming level plus one,
recursing only when that would strictly increase the target's recorded level.
The fuel argument bounds the recursion depth; a none result indicates the
recursion exceeds that depth. -/
def visit {n : Nat} (g : Graph n) : Nat → Fin n → Nat → (Fin n → Nat) → Option (Fin n → Nat)
  | 0, _, _, _ => none
  | fuel + 1, m, incoming, lvl =>
      visitList g fuel (incoming + 1) (g.imps m) (bump m incoming lvl)

/-- Modelled from the spec: traversal of the import list of the visited
module, with the strict-increase guard before each recursive visit. -/
def visitList {n : Nat} (g : Graph n) : Nat → Nat → List (Fin n) → (Fin n → Nat) → Option (Fin n → Nat)
  | _, _, [], lvl => some lvl
  | fuel, inc, t :: ts, lvl =>
      match (if lvl t < inc then visit g fuel t inc lvl else some lvl) with
      | none => none
      | some lvl2 => visitList g fuel inc ts lvl2

end

/-- Modelled from the spec: the driver propagates depth-first from every
module that has at least one outgoing import edge, all levels starting at
zero (§4.4). -/
def propagateAll {n : Nat} (g : Graph n) (fuel : Nat) : Option (Fin n → Nat) :=
  (List.finRange n).foldlM
    (fun lvl m => if g.imps m ≠ [] then visit g fuel m 0 lvl else some lvl) (fun _ => 0)

/-- The propagation exceeds every finite recursion depth on this graph. -/
def propagationDiverges {n : Nat} (g : Graph n) : Prop :=
  ∀ fuel, propagateAll g fuel = none

/-- The two-module cycle: module 0 imports module 1 and conversely. -/
def cycleGraph : Graph 2 :=
  ⟨fun m => if m = 0 then [1] else [0]⟩

/-- A module is settled when each of its importees sits strictly above it. -/
def Settled {n : Nat} (g : Graph n) (lvl : Fin n → Nat) (x : Fin n) : Prop :=
  ∀ t ∈ g.imps x, lvl x + 1 ≤ lvl t

end RefLevel

/-- A two-module acyclic graph: module 0 imports module 1. -/
def lineGraph : RefLevel.Graph 2 := ⟨fun m => if m = 0 then [1] else []⟩

/-- A topological rank witnessing that lineGraph is acyclic. -/
def lineRank : Fin 2 → Nat := fun v => if v = 0 then 1 else 0

namespace RefLevel

lemma cycle_visit_none : ∀ (fuel i : Nat) (lvl : Fin 2 → Nat), lvl 0 ≤ i → lvl 1 ≤ i →
    visit cycleGraph fuel 0 i lvl = none ∧ visit cycleGraph fuel 1 i lvl = none := by
  intro fuel
  induction fuel with
  | zero => intro i lvl _ _; exact ⟨by simp [visit], by simp [visit]⟩
  | succ fuel ih =>
    intro i lvl h0 h1
    have h10 : (1 : Fin 2) ≠ 0 := by decide
    have h01 : (0 : Fin 2) ≠ 1 := by decide
    constructor
    · have himps : cycleGraph.imps 0 = [(1 : Fin 2)] := rfl
      have hb1 : bump (0 : Fin 2) i lvl 1 = lvl 1 := by simp [bump, h10]
      have hg : bump (0 : Fin 2) i lvl 1 < i + 1 := by
        rw [hb1]; exact Nat.lt_succ_of_le h1
      have hrec : visit cycleGraph fuel 1 (i + 1) (bump (0 : Fin 2) i lvl) = none := by
        refine (ih (i + 1) (bump (0 : Fin 2) i lvl) ?_ ?_).2
        · simp [bump]; omega
        · rw [hb1]; omega
      simp [visit, himps, visitList, if_pos hg, hrec]
    · have himps : cycleGraph.imps 1 = [(0 : Fin 2)] := rfl
      have hb0 : bump (1 : Fin 2) i lvl 0 = lvl 0 := by simp [bump, h01]
      have hg : bump (1 : Fin 2) i lvl 0 < i + 1 := by
        rw [hb0]; exact Nat.lt_succ_of_le h0
      have hrec : visit cycleGraph fuel 0 (i + 1) (bump (1 : Fin 2) i lvl) = none := by
        refine (ih (i + 1) (bump (1 : Fin 2) i lvl) ?_ ?_).1
        · rw [hb0]; omega
        · simp [bump]; omega
      simp [visit, himps, visitList, if_pos hg, hrec]

lemma cycle_diverges : propagationDiverges cycleGraph := by
  intro fuel
  have h := (cycle_visit_none fuel 0 (fun _ => 0) (le_refl 0) (le_refl 0)).1
  have hne : cycleGraph.imps 0 ≠ [] := by decide
  have hfr : List.finRange 2 = [(0 : Fin 2), 1] := rfl
  simp only [propagateAll, hfr, List.foldlM, Fin.mk_zero, Fin.mk_one]
  rw [if_pos hne, h]
  rfl

lemma visitList_nil_eq {n : Nat} (g : Graph n) (fuel inc : Nat) (lvl : Fin n → Nat) :
    visitList g fuel inc [] lvl = some lvl := by
  simp [visitList]

lemma visitList_cons_none {n : Nat} (g : Graph n) (fuel inc : Nat) (t : Fin n)
    (ts : List (Fin n)) (lvl : Fin n → Nat) (h : lvl t < inc)
    (hv : visit g fuel t inc lvl = none) :
    visitList g fuel inc (t :: ts) lvl = none := by
  simp [visitList, h, hv]

lemma visitList_cons_some {n : Nat} (g : Graph n) (fuel inc : Nat) (t : Fin n)
    (ts : List (Fin n)) (lvl lvl2 : Fin n → Nat) (h : lvl t < inc)
    (hv : visit g fuel t inc lvl = some lvl2) :
    visitList g fuel inc (t :: ts) lvl = visitList g fuel inc ts lvl2 := by
  simp [visitList, h, hv]

lemma visitList_cons_skip {n : Nat} (g : Graph n) (fuel inc : Nat) (t : Fin n)
    (ts : List (Fin n)) (lvl : Fin n → Nat) (h : ¬ lvl t < inc) :
    visitList g fuel inc (t :: ts) lvl = visitList g fuel inc ts lvl := by
  simp [visitList, h]

lemma visit_succ_eq {n : Nat} (g : Graph n) (fuel : Nat) (m : Fin n) (inc : Nat)
    (lvl : Fin n → Nat) :
    visit g (fuel + 1) m inc lvl = visitList g fuel (inc + 1) (g.imps m) (bump m inc lvl) := by
  simp [visit]

lemma visit_zero_eq {n : Nat} (g : Graph n) (m : Fin n) (inc : Nat) (lvl : Fin n → Nat) :
    visit g 0 m inc lvl = none := by
  simp [visit]

lemma bump_self {n : Nat} (m : Fin n) (inc : Nat) (lvl : Fin n → Nat) :
    bump m inc lvl m = max (lvl m) inc := by
  simp [bump]

lemma bump_other {n : Nat} (m v : Fin n) (inc : Nat) (lvl : Fin n → Nat) (h : v ≠ m) :
    bump m inc lvl v = lvl v := by
  simp [bump, h]

lemma visitList_mono_of {n : Nat} (g : Graph n) (fuel : Nat)
    (hP : ∀ (m : Fin n) (inc : Nat) (lvl lvl' : Fin n → Nat),
      visit g fuel m inc lvl = some lvl' → ∀ v, lvl v ≤ lvl' v) :
    ∀ (L : List (Fin n)) (inc : Nat) (lvl lvl' : Fin n → Nat),
      visitList g fuel inc L lvl = some lvl' → ∀ v, lvl v ≤ lvl' v := by
  intro L
  induction L with
  | nil =>
    intro inc lvl lvl' h v
    rw [visitList_nil_eq] at h
    cases h
    exact le_refl _
  | cons t ts ih =>
    intro inc lvl lvl' h v
    by_cases hg : lvl t < inc
    · cases hv : visit g fuel t inc lvl with
      | none => rw [visitList_cons_none g fuel inc t ts lvl hg hv] at h; cases h
      | some lvl2 =>
        rw [visitList_cons_some g fuel inc t ts lvl lvl2 hg hv] at h
        exact le_trans (hP t inc lvl lvl2 hv v) (ih inc lvl2 lvl' h v)
    · rw [visitList_cons_skip g fuel inc t ts lvl hg] at h
      exact ih inc lvl lvl' h v

lemma visit_mono {n : Nat} (g : Graph n) :
    ∀ (fuel : Nat) (m : Fin n) (inc : Nat) (lvl lvl' : Fin n → Nat),
      visit g fuel m inc lvl = some lvl' → ∀ v, lvl v ≤ lvl' v := by
  intro fuel
  induction fuel with
  | zero => intro m inc lvl lvl' h; rw [visit_zero_eq] at h; cases h
  | succ fuel ih =>
    intro m inc lvl lvl' h v
    rw [visit_succ_eq] at h
    have hb : bump m inc lvl v ≥ lvl v := by
      by_cases hv : v = m
      · subst hv; rw [bump_self]; exact Nat.le_max_left _ _
      · rw [bump_other m v inc lvl hv]
    exact le_trans hb (visitList_mono_of g fuel ih (g.imps m) (inc + 1) _ lvl' h v)

lemma visitList_mono {n : Nat} (g : Graph n) (fuel : Nat) :
    ∀ (L : List (Fin n)) (inc : Nat) (lvl lvl' : Fin n → Nat),
      visitList g fuel inc L lvl = some lvl' → ∀ v, lvl v ≤ lvl' v :=
  visitList_mono_of g fuel (visit_mono g fuel)

lemma visitList_post_of {n : Nat} (g : Graph n) (fuel : Nat)
    (hP : ∀ (m : Fin n) (inc : Nat) (lvl lvl' : Fin n → Nat),
      visit g fuel m inc lvl = some lvl' → inc ≤ lvl' m) :
    ∀ (L : List (Fin n)) (inc : Nat) (lvl lvl' : Fin n → Nat),
      visitList g fuel inc L lvl = some lvl' → ∀ t ∈ L, inc ≤ lvl' t := by
  intro L
  induction L with
  | nil => intro inc lvl lvl' _ t ht; cases ht
  | cons s ts ih =>
    intro inc lvl lvl' h t ht
    by_cases hg : lvl s < inc
    · cases hv : visit g fuel s inc lvl with
      | none => rw [visitList_cons_none g fuel inc s ts lvl hg hv] at h; cases h
      | some lvl2 =>
        rw [visitList_cons_some g fuel inc s ts lvl lvl2 hg hv] at h
        rcases List.mem_cons.mp ht with hts | hts
        · subst hts
          exact le_trans (hP t inc lvl lvl2 hv) (visitList_mono g fuel ts inc lvl2 lvl' h t)
        · exact ih inc lvl2 lvl' h t hts
    · rw [visitList_cons_skip g fuel inc s ts lvl hg] at h
      rcases List.mem_cons.mp ht with hts | hts
      · subst hts
        exact le_trans (Nat.le_of_not_lt hg) (visitList_mono g fuel ts inc lvl lvl' h t)
      · exact ih inc lvl lvl' h t hts

lemma visit_post {n : Nat} (g : Graph n) :
    ∀ (fuel : Nat) (m : Fin n) (inc : Nat) (lvl lvl' : Fin n → Nat),
      visit g fuel m inc lvl = some lvl' → inc ≤ lvl' m := by
  intro fuel m inc lvl lvl' h
  cases fuel with
  | zero => rw [visit_zero_eq] at h; cases h
  | succ fuel =>
    rw [visit_succ_eq] at h
    have h1 : inc ≤ bump m inc lvl m := by rw [bump_self]; exact Nat.le_max_right _ _
    exact le_trans h1 (visitList_mono g fuel (g.imps m) (inc + 1) _ lvl' h m)

lemma visitList_post {n : Nat} (g : Graph n) (fuel : Nat) :
    ∀ (L : List (Fin n)) (inc : Nat) (lvl lvl' : Fin n → Nat),
      visitList g fuel inc L lvl = some lvl' → ∀ t ∈ L, inc ≤ lvl' t :=
  visitList_post_of g fuel (visit_post g fuel)

lemma visit_imports_post {n : Nat} (g : Graph n) (fuel : Nat) (m : Fin n) (inc : Nat)
    (lvl lvl' : Fin n → Nat) (h : visit g (fuel + 1) m inc lvl = some lvl') :
    ∀ t ∈ g.imps m, inc + 1 ≤ lvl' t := by
  rw [visit_succ_eq] at h
  exact visitList_post g fuel (g.imps m) (inc + 1) _ lvl' h

lemma visitList_rank_of {n : Nat} (g : Graph n) (rank : Fin n → Nat) (fuel : Nat)
    (hP : ∀ (m : Fin n) (inc : Nat) (lvl lvl' : Fin n → Nat),
      visit g fuel m inc lvl = some lvl' → ∀ v, lvl' v ≠ lvl v → rank v ≤ rank m) :
    ∀ (L : List (Fin n)) (inc : Nat) (lvl lvl' : Fin n → Nat),
      visitList g fuel inc L lvl = some lvl' → ∀ v, lvl' v ≠ lvl v →
        ∃ t ∈ L, rank v ≤ rank t := by
  intro L
  induction L with
  | nil => intro inc lvl lvl' h v hv; rw [visitList_nil_eq] at h; cases h; exact absurd rfl hv
  | cons s ts ih =>
    intro inc lvl lvl' h v hv
    by_cases hg : lvl s < inc
    · cases hvs : visit g fuel s inc lvl with
      | none => rw [visitList_cons_none g fuel inc s ts lvl hg hvs] at h; cases h
      | some lvl2 =>
        rw [visitList_cons_some g fuel inc s ts lvl lvl2 hg hvs] at h
        by_cases hch : lvl' v = lvl2 v
        · have hv2 : lvl2 v ≠ lvl v := by rw [← hch]; exact hv
          exact ⟨s, List.mem_cons_self s ts, hP s inc lvl lvl2 hvs v hv2⟩
        · rcases ih inc lvl2 lvl' h v hch with ⟨t, ht, hrt⟩
          exact ⟨t, List.mem_cons_of_mem s ht, hrt⟩
    · rw [visitList_cons_skip g fuel inc s ts lvl hg] at h
      rcases ih inc lvl lvl' h v hv with ⟨t, ht, hrt⟩
      exact ⟨t, List.mem_cons_of_mem s ht, hrt⟩

lemma visit_rank {n : Nat} (g : Graph n) (rank : Fin n → Nat)
    (hr : ∀ (m t : Fin n), t ∈ g.imps m → rank t < rank m) :
    ∀ (fuel : Nat) (m : Fin n) (inc : Nat) (lvl lvl' : Fin n → Nat),
      visit g fuel m inc lvl = some lvl' → ∀ v, lvl' v ≠ lvl v → rank v ≤ rank m := by
  intro fuel
  induction fuel with
  | zero => intro m inc lvl lvl' h; rw [visit_zero_eq] at h; cases h
  | succ fuel ih =>
    intro m inc lvl lvl' h v hv
    rw [visit_succ_eq] at h
    by_cases hch : lvl' v = bump m inc lvl v
    · by_cases hvm : v = m
      · subst hvm; exact le_refl _
      · rw [bump_other m v inc lvl hvm] at hch; exact absurd hch hv
    · rcases visitList_rank_of g rank fuel ih (g.imps m) (inc + 1) _ lvl' h v hch with ⟨t, ht, hrt⟩
      exact le_of_lt (lt_of_le_of_lt hrt (hr m t ht))

lemma visit_fixes_self {n : Nat} (g : Graph n) (rank : Fin n → Nat)
    (hr : ∀ (m t : Fin n), t ∈ g.imps m → rank t < rank m)
    (fuel : Nat) (m : Fin n) (inc : Nat) (lvl lvl' : Fin n → Nat)
    (h : visit g (fuel + 1) m inc lvl = some lvl') :
    lvl' m = max (lvl m) inc := by
  have h2 := h
  rw [visit_succ_eq] at h2
  by_cases hch : lvl' m = bump m inc lvl m
  · rw [hch, bump_self]
  · rcases visitList_rank_of g rank fuel
      (visit_rank g rank hr fuel) (g.imps m) (inc + 1) _ lvl' h2 m hch with ⟨t, ht, hrt⟩
    exact absurd hrt (Nat.not_le_of_lt (hr m t ht))

lemma settled_preserved {n : Nat} (g : Graph n) (lvl lvl' : Fin n → Nat) (x : Fin n)
    (hs : Settled g lvl x) (heq : lvl' x = lvl x) (hmono : ∀ v, lvl v ≤ lvl' v) :
    Settled g lvl' x := by
  intro t ht
  rw [heq]
  exact le_trans (hs t ht) (hmono t)

lemma visitList_settled_of {n : Nat} (g : Graph n) (fuel : Nat)
    (hP : ∀ (m : Fin n) (inc : Nat) (lvl lvl' : Fin n → Nat),
      visit g fuel m inc lvl = some lvl' → ∀ x, lvl' x = lvl x ∨ Settled g lvl' x) :
    ∀ (L : List (Fin n)) (inc : Nat) (lvl lvl' : Fin n → Nat),
      visitList g fuel inc L lvl = some lvl' → ∀ x, lvl' x = lvl x ∨ Settled g lvl' x := by
  intro L
  induction L with
  | nil => intro inc lvl lvl' h x; rw [visitList_nil_eq] at h; cases h; exact Or.inl rfl
  | cons s ts ih =>
    intro inc lvl lvl' h x
    by_cases hg : lvl s < inc
    · cases hvs : visit g fuel s inc lvl with
      | none => rw [visitList_cons_none g fuel inc s ts lvl hg hvs] at h; cases h
      | some lvl2 =>
        rw [visitList_cons_some g fuel inc s ts lvl lvl2 hg hvs] at h
        rcases ih inc lvl2 lvl' h x with hx | hx
        · rcases hP s inc lvl lvl2 hvs x with hx2 | hx2
          · exact Or.inl (hx.trans hx2)
          · exact Or.inr (settled_preserved g lvl2 lvl' x hx2 hx
              (visitList_mono g fuel ts inc lvl2 lvl' h))
        · exact Or.inr hx
    · rw [visitList_cons_skip g fuel inc s ts lvl hg] at h
      exact ih inc lvl lvl' h x

lemma visit_settled {n : Nat} (g : Graph n) (rank : Fin n → Nat)
    (hr : ∀ (m t : Fin n), t ∈ g.imps m → rank t < rank m) :
    ∀ (fuel : Nat) (m : Fin n) (inc : Nat) (lvl lvl' : Fin n → Nat),
      visit g fuel m inc lvl = some lvl' → ∀ x, lvl' x = lvl x ∨ Settled g lvl' x := by
  intro fuel
  induction fuel with
  | zero => intro m inc lvl lvl' h; rw [visit_zero_eq] at h; cases h
  | succ fuel ih =>
    intro m inc lvl lvl' h x
    by_cases hxm : x = m
    · subst hxm
      have hfix := visit_fixes_self g rank hr fuel x inc lvl lvl' h
      by_cases hle : inc ≤ lvl x
      · exact Or.inl (by rw [hfix]; exact Nat.max_eq_left hle)
      · refine Or.inr ?_
        intro t ht
        have hinc : lvl' x = inc := by
          rw [hfix]; exact Nat.max_eq_right (Nat.le_of_not_le hle)
        rw [hinc]
        exact visit_imports_post g fuel x inc lvl lvl' h t ht
    · have h2 := h
      rw [visit_succ_eq] at h2
      rcases visitList_settled_of g fuel ih (g.imps m) (inc + 1) _ lvl' h2 x with hx | hx
      · rw [bump_other m x inc lvl hxm] at hx; exact Or.inl hx
      · exact Or.inr hx

lemma visitList_some_of {n : Nat} (g : Graph n) (rank : Fin n → Nat) (fuel : Nat)
    (hP : ∀ (m : Fin n) (inc : Nat) (lvl : Fin n → Nat), rank m < fuel →
      ∃ lvl', visit g fuel m inc lvl = some lvl') :
    ∀ (L : List (Fin n)) (inc : Nat) (lvl : Fin n → Nat), (∀ t ∈ L, rank t < fuel) →
      ∃ lvl', visitList g fuel inc L lvl = some lvl' := by
  intro L
  induction L with
  | nil => intro inc lvl _; exact ⟨lvl, visitList_nil_eq g fuel inc lvl⟩
  | cons s ts ih =>
    intro inc lvl hL
    by_cases hg : lvl s < inc
    · rcases hP s inc lvl (hL s (List.mem_cons_self s ts)) with ⟨lvl2, hv⟩
      rcases ih inc lvl2 (fun t ht => hL t (List.mem_cons_of_mem s ht)) with ⟨lvl', hrest⟩
      exact ⟨lvl', by rw [visitList_cons_some g fuel inc s ts lvl lvl2 hg hv]; exact hrest⟩
    · rcases ih inc lvl (fun t ht => hL t (List.mem_cons_of_mem s ht)) with ⟨lvl', hrest⟩
      exact ⟨lvl', by rw [visitList_cons_skip g fuel inc s ts lvl hg]; exact hrest⟩

lemma visit_some {n : Nat} (g : Graph n) (rank : Fin n → Nat)
    (hr : ∀ (m t : Fin n), t ∈ g.imps m → rank t < rank m) :
    ∀ (fuel : Nat) (m : Fin n) (inc : Nat) (lvl : Fin n → Nat), rank m < fuel →
      ∃ lvl', visit g fuel m inc lvl = some lvl' := by
  intro fuel
  induction fuel with
  | zero => intro m _ _ hm; cases hm
  | succ fuel ih =>
    intro m inc lvl hm
    have hL : ∀ t ∈ g.imps m, rank t < fuel :=
      fun t ht => lt_of_lt_of_le (hr m t ht) (Nat.lt_succ_iff.mp hm)
    rcases visitList_some_of g rank fuel ih (g.imps m) (inc + 1) (bump m inc lvl) hL
      with ⟨lvl', hsome⟩
    exact ⟨lvl', by rw [visit_succ_eq]; exact hsome⟩

lemma fold_levels {n : Nat} (g : Graph n) (rank : Fin n → Nat)
    (hr : ∀ (m t : Fin n), t ∈ g.imps m → rank t < rank m) (fuel : Nat) :
    ∀ (L : List (Fin n)) (lvl lvl' : Fin n → Nat),
      L.foldlM (fun l m => if g.imps m ≠ [] then visit g fuel m 0 l else some l) lvl
        = some lvl' →
      (∀ x, lvl x = 0 ∨ Settled g lvl x) →
      (∀ x, lvl' x = 0 ∨ Settled g lvl' x) ∧ (∀ v, lvl v ≤ lvl' v) ∧
        (∀ m ∈ L, ∀ t ∈ g.imps m, 1 ≤ lvl' t) := by
  intro L
  induction L with
  | nil =>
    intro lvl lvl' h hinv
    simp only [List.foldlM, pure, Option.some.injEq] at h
    subst h
    exact ⟨hinv, fun v => le_refl _, by simp⟩
  | cons m rest ih =>
    intro lvl lvl' h hinv
    rw [List.foldlM_cons] at h
    by_cases hne : g.imps m ≠ []
    · rw [if_pos hne] at h
      cases hv : visit g fuel m 0 lvl with
      | none => rw [hv] at h; simp at h
      | some lvl2 =>
        rw [hv] at h
        have hmonov : ∀ v, lvl v ≤ lvl2 v := visit_mono g fuel m 0 lvl lvl2 hv
        have hinv2 : ∀ x, lvl2 x = 0 ∨ Settled g lvl2 x := by
          intro x
          rcases visit_settled g rank hr fuel m 0 lvl lvl2 hv x with hx | hx
          · rcases hinv x with h0 | hs
            · exact Or.inl (hx.trans h0)
            · exact Or.inr (settled_preserved g lvl lvl2 x hs hx hmonov)
          · exact Or.inr hx
        obtain ⟨hinv', hmono', hmem'⟩ := ih lvl2 lvl' h hinv2
        refine ⟨hinv', fun v => le_trans (hmonov v) (hmono' v), ?_⟩
        intro m' hm' t ht
        rcases List.mem_cons.mp hm' with hmm | hmm
        · subst hmm
          cases fuel with
          | zero => rw [visit_zero_eq] at hv; cases hv
          | succ f =>
            exact le_trans (visit_imports_post g f m' 0 lvl lvl2 hv t ht) (hmono' t)
        · exact hmem' m' hmm t ht
    · rw [if_neg hne] at h
      obtain ⟨hinv', hmono', hmem'⟩ := ih lvl lvl' h hinv
      refine ⟨hinv', hmono', ?_⟩
      intro m' hm' t ht
      rcases List.mem_cons.mp hm' with hmm | hmm
      · subst hmm
        rw [Decidable.not_not.mp hne] at ht
        cases ht
      · exact hmem' m' hmm t ht

lemma fold_some {n : Nat} (g : Graph n) (rank : Fin n → Nat)
    (hr : ∀ (m t : Fin n), t ∈ g.imps m → rank t < rank m) (fuel : Nat) :
    ∀ (L : List (Fin n)) (lvl : Fin n → Nat), (∀ m ∈ L, rank m < fuel) →
      ∃ lvl', L.foldlM
        (fun l m => if g.imps m ≠ [] then visit g fuel m 0 l else some l) lvl = some lvl' := by
  intro L
  induction L with
  | nil => intro lvl _; exact ⟨lvl, rfl⟩
  | cons m rest ih =>
    intro lvl hL
    by_cases hne : g.imps m ≠ []
    · rcases visit_some g rank hr fuel m 0 lvl (hL m (List.mem_cons_self m rest)) with ⟨lvl2, hv⟩
      rcases ih lvl2 (fun s hs => hL s (List.mem_cons_of_mem m hs)) with ⟨lvl', hrest⟩
      refine ⟨lvl', ?_⟩
      rw [List.foldlM_cons, if_pos hne, hv]
      exact hrest
    · rcases ih lvl (fun s hs => hL s (List.mem_cons_of_mem m hs)) with ⟨lvl', hrest⟩
      refine ⟨lvl', ?_⟩
      rw [List.foldlM_cons, if_neg hne]
      exact hrest

lemma propagateAll_spec {n : Nat} (g : Graph n) (rank : Fin n → Nat)
    (hr : ∀ (m t : Fin n), t ∈ g.imps m → rank t < rank m)
    (hb : ∀ v : Fin n, rank v < n) :
    ∃ final, propagateAll g n = some final ∧
      ∀ (m t : Fin n), t ∈ g.imps m → final m + 1 ≤ final t := by
  rcases fold_some g rank hr n (List.finRange n) (fun _ => 0) (fun m _ => hb m)
    with ⟨final, hsome⟩
  obtain ⟨hinv, _, hmem⟩ := fold_levels g rank hr n (List.finRange n) (fun _ => 0) final hsome
    (fun x => Or.inl rfl)
  refine ⟨final, hsome, ?_⟩
  intro m t ht
  rcases hinv m with h0 | hs
  · rw [h0]
    exact hmem m (List.mem_finRange m) t ht
  · exact hs t ht

lemma desc_order {n : Nat} (final : Fin n → Nat) (ord : List (Fin n))
    (hsort : ord.Pairwise (fun a b => final b ≤ final a))
    (m t : Fin n) (hlt : final m + 1 ≤ final t) :
    ∀ (i j : Fin ord.length), ord.get i = t → ord.get j = m → i < j := by
  intro i j hi hj
  rcases lt_trichotomy i j with h | h | h
  · exact h
  · exfalso
    have hteq : t = m := by rw [← hi, ← hj, h]
    rw [hteq] at hlt
    omega
  · exfalso
    have hle := (List.pairwise_iff_get.mp hsort) j i h
    rw [hi, hj] at hle
    omega

end RefLevel

/-- C3 (amended): for every module graph free of directed cycles — witnessed
by a topological rank that strictly decreases along import edges — the
reference-level propagation terminates with recursion depth bounded by the
module count, the final level of every importee strictly exceeds the level of
each of its importers, and hence any processing order sorted by descending
level visits every importee before any of its importers. (On cyclic graphs
the propagation does not terminate; see the counterexample.) -/
theorem c3_level_propagation (n : Nat) (g : RefLevel.Graph n) (rank : Fin n → Nat)
    (hr : ∀ (m t : Fin n), t ∈ g.imps m → rank t < rank m)
    (hb : ∀ v : Fin n, rank v < n) :
    ∃ final, RefLevel.propagateAll g n = some final ∧
      (∀ (m t : Fin n), t ∈ g.imps m → final m + 1 ≤ final t) ∧
      (∀ ord : List (Fin n), ord.Pairwise (fun a b => final b ≤ final a) →
        ∀ (m t : Fin n), t ∈ g.imps m →
          ∀ (i j : Fin ord.length), ord.get i = t → ord.get j = m → i < j) := by
  rcases RefLevel.propagateAll_spec g rank hr hb with ⟨final, hsome, hedge⟩
  exact ⟨final, hsome, hedge, fun ord hsort m t ht i j hi hj =>
    RefLevel.desc_order final ord hsort m t (hedge m t ht) i j hi hj⟩

/-- C3, counterexample: on the cyclic graph in which module 0 imports module 1
and module 1 imports module 0 — the very example the claim admits — the
reference-level propagation of the specification exceeds every finite
recursion depth: each guarded recursion strictly increases a level, and around
the cycle the two levels grow without bound, so the strict-increase guard does
not make the propagation terminate. -/
theorem c3_counterexample : RefLevel.propagationDiverges RefLevel.cycleGraph :=
  RefLevel.cycle_diverges

/-- C3, witness: the amended theorem applied to the concrete acyclic
two-module graph. -/
theorem c3_witness :
    ∃ final, RefLevel.propagateAll lineGraph 2 = some final ∧
      (∀ (m t : Fin 2), t ∈ lineGraph.imps m → final m + 1 ≤ final t) ∧
      (∀ ord : List (Fin 2), ord.Pairwise (fun a b => final b ≤ final a) →
        ∀ (m t : Fin 2), t ∈ lineGraph.imps m →
          ∀ (i j : Fin ord.length), ord.get i = t → ord.get j = m → i < j) :=
  c3_level_propagation 2 lineGraph lineRank (by decide) (by decide)

lemma SafeStep.rfl (mm : String → String → Bool) (ex : List String)
    (fs : List (String × String)) (st : LoopState) : SafeStep mm ex fs st st :=
  ⟨fun e he => Or.inl he, fun e he => Or.inl he, fun p hp => Or.inl hp, fun e he => Or.inl he⟩

lemma SafeStep.trans (mm : String → String → Bool) (ex : List String)
    (fs : List (String × String)) (st r r' : LoopState)
    (h1 : SafeStep mm ex fs st r) (h2 : SafeStep mm ex fs r r') : SafeStep mm ex fs st r' := by
  obtain ⟨c1, w1, p1, h1h⟩ := h1
  obtain ⟨c2, w2, p2, h2h⟩ := h2
  refine ⟨?_, ?_, ?_, ?_⟩
  · intro e he; rcases c2 e he with h | h; exacts [c1 e h, Or.inr h]
  · intro e he; rcases w2 e he with h | h; exacts [w1 e h, Or.inr h]
  · intro p hp; rcases p2 p hp with h | h; exacts [p1 p h, Or.inr h]
  · intro e he; rcases h2h e he with h | h; exacts [h1h e h, Or.inr h]

lemma SafeStep.of_log_eq (mm : String → String → Bool) (ex : List String)
    (fs : List (String × String)) (st r : LoopState) (h : r.log = st.log) :
    SafeStep mm ex fs st r := by
  refine ⟨?_, ?_, ?_, ?_⟩ <;> intro e he <;> rw [h] at he <;> exact Or.inl he

lemma safe_of_parts (mm : String → String → Bool) (ex : List String)
    (fs : List (String × String)) (st r : LoopState) (rp ap : String)
    (hm : matchExcludes mm rp ex = false)
    (hc : r.log.copies = st.log.copies) (hw : r.log.writes = st.log.writes)
    (hp : r.log.parsedPaths = st.log.parsedPaths)
    (hh : r.log.hashed = st.log.hashed ++ [(rp, ap)]) :
    SafeStep mm ex fs st r := by
  refine ⟨?_, ?_, ?_, ?_⟩
  · intro e he; rw [hc] at he; exact Or.inl he
  · intro e he; rw [hw] at he; exact Or.inl he
  · intro p hp2; rw [hp] at hp2; exact Or.inl hp2
  · intro e he
    rw [hh] at he
    simp only [List.mem_append, List.mem_singleton] at he
    rcases he with h | h
    · exact Or.inl h
    · subst h
      exact Or.inr hm

lemma contImp_safe (ext : Externals) (ex : List String) (fs : List (String × String))
    (file afp : String) (st : LoopState) (imp : ImportStmt) (pu : Option UrlRec) :
    SafeStep ext.minimatch ex fs st (contImp ext ex fs file afp st imp pu) := by
  cases pu with
  | none =>
    simp only [contImp]
    split
    next => exact SafeStep.rfl _ _ _ _
    next hm =>
      split
      next => exact SafeStep.of_log_eq _ _ _ _ _ rfl
      next fileData heq =>
        have hfalse : matchExcludes ext.minimatch
            (pathRelative afp (pathResolve afp "")) ex = false := Bool.eq_false_iff.mpr hm
        split
        next => exact safe_of_parts _ ex fs st _ _ _ hfalse rfl rfl rfl rfl
        next => exact safe_of_parts _ ex fs st _ _ _ hfalse rfl rfl rfl rfl
  | some p =>
    simp only [contImp]
    split
    next => exact SafeStep.rfl _ _ _ _
    next hm =>
      split
      next => exact SafeStep.of_log_eq _ _ _ _ _ rfl
      next fileData heq =>
        have hfalse : matchExcludes ext.minimatch
            (pathRelative afp (pathResolve afp p.pathname)) ex = false :=
          Bool.eq_false_iff.mpr hm
        split
        next => exact safe_of_parts _ ex fs st _ _ _ hfalse rfl rfl rfl rfl
        next => exact safe_of_parts _ ex fs st _ _ _ hfalse rfl rfl rfl rfl

lemma SafeStep.unchanged (mm : String → String → Bool) (ex : List String)
    (fs : List (String × String)) (st r : LoopState)
    (hc : r.log.copies = st.log.copies) (hw : r.log.writes = st.log.writes)
    (hp : r.log.parsedPaths = st.log.parsedPaths) (hh : r.log.hashed = st.log.hashed) :
    SafeStep mm ex fs st r := by
  refine ⟨?_, ?_, ?_, ?_⟩
  · intro e he; rw [hc] at he; exact Or.inl he
  · intro e he; rw [hw] at he; exact Or.inl he
  · intro p hp2; rw [hp] at hp2; exact Or.inl hp2
  · intro e he; rw [hh] at he; exact Or.inl he

lemma processImp_safe (ext : Externals) (ex : List String) (fs : List (String × String))
    (file afp : String) (st : LoopState) (imp : ImportStmt) :
    SafeStep ext.minimatch ex fs st (processImp ext ex fs file afp st imp) := by
  simp only [processImp]
  split
  next => exact SafeStep.rfl _ _ _ _
  next =>
    split
    next => exact SafeStep.rfl _ _ _ _
    next =>
      split
      next => exact contImp_safe ext ex fs file afp st imp none
      next u heq =>
        split
        next => exact contImp_safe ext ex fs file afp st imp none
        next =>
          split
          next => exact SafeStep.of_log_eq _ _ _ _ _ rfl
          next p hp => exact contImp_safe ext ex fs file afp st imp (some p)

lemma foldImps_safe (ext : Externals) (ex : List String) (fs : List (String × String))
    (file afp : String) : ∀ (imps : List ImportStmt) (st : LoopState),
    SafeStep ext.minimatch ex fs st (imps.foldl (processImp ext ex fs file afp) st) := by
  intro imps
  induction imps with
  | nil => intro st; exact SafeStep.rfl _ _ _ _
  | cons i rest ih =>
    intro st
    simp only [List.foldl_cons]
    exact SafeStep.trans _ _ _ _ _ _ (processImp_safe ext ex fs file afp st i) (ih _)

lemma outputFileFn_safe (mm : String → String → Bool) (ex : List String)
    (fs : List (String × String)) (st : LoopState) (file outP : String) :
    SafeStep mm ex fs st (outputFileFn fs st file outP) := by
  simp only [outputFileFn]
  split
  next => exact SafeStep.of_log_eq _ _ _ _ _ rfl
  next c heq =>
    refine ⟨?_, fun e he => Or.inl he, fun p hp => Or.inl hp, fun e he => Or.inl he⟩
    intro e he
    simp only [List.mem_append, List.mem_singleton] at he
    rcases he with h | h
    · exact Or.inl h
    · subst h
      exact Or.inr heq

lemma processFile_safe (ext : Externals) (cfg : Config) (inp : BuildInput)
    (st : LoopState) (file : String) :
    SafeStep ext.minimatch (cfg.excludes.getD []) inp.fs st (processFile ext cfg inp st file) := by
  simp only [processFile]
  split
  next => exact SafeStep.rfl _ _ _ _
  next =>
    split
    next =>
      split
      next => exact outputFileFn_safe _ _ _ _ _ _
      next => exact SafeStep.rfl _ _ _ _
    next hjs =>
      have hjs2 : strToLower (pathExtname file) = ".js" ∧
          matchExcludes ext.minimatch file (cfg.excludes.getD []) = false := by
        simp only [Bool.or_eq_true, bne_iff_ne, ne_eq, Bool.not_eq_true, not_or, not_not] at hjs
        exact ⟨hjs.1, hjs.2⟩
      split
      next => exact SafeStep.of_log_eq _ _ _ _ _ rfl
      next codeData heq =>
        have hst1 : ∀ r : LoopState, r.log = { st.log with
            readPaths := st.log.readPaths ++ [file]
            parsedPaths := st.log.parsedPaths ++ [file] } →
            SafeStep ext.minimatch (cfg.excludes.getD []) inp.fs st r := by
          intro r hr
          refine ⟨?_, ?_, ?_, ?_⟩
          · intro e he; rw [hr] at he; exact Or.inl he
          · intro e he; rw [hr] at he; exact Or.inl he
          · intro p hp
            rw [hr] at hp
            simp only [List.mem_append, List.mem_singleton] at hp
            rcases hp with h | h
            · exact Or.inl h
            · subst h
              exact Or.inr hjs2
          · intro e he; rw [hr] at he; exact Or.inl he
        split
        next =>
          split
          next => exact SafeStep.trans _ _ _ _ _ _ (hst1 _ rfl) (outputFileFn_safe _ _ _ _ _ _)
          next => exact hst1 _ rfl
        next =>
          exact SafeStep.trans _ _ _ _ _ _ (hst1 _ rfl)
            (foldImps_safe ext (cfg.excludes.getD []) inp.fs file
              (pathResolve cfg.sourcedir (pathDirname (pathRelative cfg.sourcedir file))) _ _)

lemma foldFiles_safe (ext : Externals) (cfg : Config) (inp : BuildInput) :
    ∀ (files : List String) (st : LoopState),
    SafeStep ext.minimatch (cfg.excludes.getD []) inp.fs st
      (files.foldl (processFile ext cfg inp) st) := by
  intro files
  induction files with
  | nil => intro st; exact SafeStep.rfl _ _ _ _
  | cons f rest ih =>
    intro st
    simp only [List.foldl_cons]
    exact SafeStep.trans _ _ _ _ _ _ (processFile_safe ext cfg inp st f) (ih _)

lemma updateFileStep_safe (mm : String → String → Bool) (ex : List String)
    (useOut : Bool) (fs : List (String × String)) (st : LoopState) (u : UpdateEntry) :
    SafeStep mm ex fs st (updateFileStep useOut fs st u) := by
  simp only [updateFileStep]
  split
  next => exact SafeStep.rfl _ _ _ _
  next =>
    split
    next => exact SafeStep.of_log_eq _ _ _ _ _ rfl
    next codeData heq =>
      split
      next => exact SafeStep.unchanged _ _ _ _ _ rfl rfl rfl rfl
      next =>
        split
        next => exact SafeStep.unchanged _ _ _ _ _ rfl rfl rfl rfl
        next =>
          refine ⟨fun e he => Or.inl he, ?_, fun p hp => Or.inl hp, fun e he => Or.inl he⟩
          intro e he
          simp only [List.mem_append, List.mem_singleton] at he
          rcases he with h | h
          · exact Or.inl h
          · subst h
            exact Or.inr heq

lemma foldUpd_safe (mm : String → String → Bool) (ex : List String) (useOut : Bool)
    (fs : List (String × String)) : ∀ (l : List UpdateEntry) (st : LoopState),
    SafeStep mm ex fs st (l.foldl (updateFileStep useOut fs) st) := by
  intro l
  induction l with
  | nil => intro st; exact SafeStep.rfl _ _ _ _
  | cons u rest ih =>
    intro st
    simp only [List.foldl_cons]
    exact SafeStep.trans _ _ _ _ _ _ (updateFileStep_safe mm ex useOut fs st u) (ih _)

lemma build_safe (ext : Externals) (inp : BuildInput) (cfg : Config)
    (hc : inp.config = some cfg) :
    (∀ e ∈ (build ext inp).log.copies, fsRead inp.fs e.1 = some e.2.2) ∧
    (∀ e ∈ (build ext inp).log.writes, fsRead inp.fs e.1 = some e.2) ∧
    (∀ p ∈ (build ext inp).log.parsedPaths, strToLower (pathExtname p) = ".js" ∧
      matchExcludes ext.minimatch p (cfg.excludes.getD []) = false) ∧
    (∀ e ∈ (build ext inp).log.hashed,
      matchExcludes ext.minimatch e.1 (cfg.excludes.getD []) = false) := by
  have hout : ∀ (st0 st : LoopState), st0.log.copies = [] → st0.log.writes = [] →
      st0.log.parsedPaths = [] → st0.log.hashed = [] →
      SafeStep ext.minimatch (cfg.excludes.getD []) inp.fs st0 st →
      (∀ e ∈ st.log.copies, fsRead inp.fs e.1 = some e.2.2) ∧
      (∀ e ∈ st.log.writes, fsRead inp.fs e.1 = some e.2) ∧
      (∀ p ∈ st.log.parsedPaths, strToLower (pathExtname p) = ".js" ∧
        matchExcludes ext.minimatch p (cfg.excludes.getD []) = false) ∧
      (∀ e ∈ st.log.hashed,
        matchExcludes ext.minimatch e.1 (cfg.excludes.getD []) = false) := by
    intro st0 st h1 h2 h3 h4 hs
    obtain ⟨c, w, p, h⟩ := hs
    refine ⟨?_, ?_, ?_, ?_⟩
    · intro e he; rcases c e he with hx | hx
      · rw [h1] at hx; cases hx
      · exact hx
    · intro e he; rcases w e he with hx | hx
      · rw [h2] at hx; cases hx
      · exact hx
    · intro q hq; rcases p q hq with hx | hx
      · rw [h3] at hx; cases hx
      · exact hx
    · intro e he; rcases h e he with hx | hx
      · rw [h4] at hx; cases hx
      · exact hx
  simp only [build, hc]
  split
  next =>
    refine ⟨?_, ?_, ?_, ?_⟩ <;> intro e he <;> simp [RunLog.init] at he
  next =>
    split
    next e heq =>
      refine hout _ _ ?_ ?_ ?_ ?_ (foldFiles_safe ext cfg inp inp.files _) <;> rfl
    next heq =>
      refine hout _ _ ?_ ?_ ?_ ?_ (SafeStep.trans _ _ _ _ _ _
        (foldFiles_safe ext cfg inp inp.files _)
        (foldUpd_safe ext.minimatch (cfg.excludes.getD []) (truthyStr cfg.outputdir)
          inp.fs _ _)) <;> rfl

lemma processImp_good (ext : Externals) (ex : List String) (fs : List (String × String))
    (file afp : String) (st : LoopState) (imp : ImportStmt)
    (himp : (imp.moduleSpecifier.type = SpecType.relative ∨
        imp.moduleSpecifier.type = SpecType.absolute) →
      ∃ v, imp.moduleSpecifier.value = some v ∧ v ≠ "" ∧ hasUrlScheme v = false) :
    (processImp ext ex fs file afp st imp).log = st.log ∧
    (processImp ext ex fs file afp st imp).updated = st.updated := by
  simp only [processImp]
  split
  next => exact ⟨rfl, rfl⟩
  next =>
    split
    next => exact ⟨rfl, rfl⟩
    next hty =>
      have hor : imp.moduleSpecifier.type = SpecType.relative ∨
          imp.moduleSpecifier.type = SpecType.absolute := by
        rcases Decidable.em (imp.moduleSpecifier.type = SpecType.relative) with h | h
        · exact Or.inl h
        · refine Or.inr ?_
          by_contra h2
          exact hty ⟨h, h2⟩
      obtain ⟨v, hv, hne, hns⟩ := himp hor
      split
      next heq => rw [hv] at heq; exact Option.noConfusion heq
      next u heq =>
        rw [hv] at heq
        injection heq with hvu
        subst hvu
        split
        next hueq => exact absurd hueq hne
        next =>
          have hnone : jsNewURL v = none := by simp [jsNewURL, hns]
          split
          next => exact ⟨rfl, rfl⟩
          next p hp => rw [hnone] at hp; exact Option.noConfusion hp

lemma foldImps_good (ext : Externals) (ex : List String) (fs : List (String × String))
    (file afp : String) (codeData : String) (hgp : GoodParser ext.parseImports) :
    ∀ (imps : List ImportStmt), (∀ i ∈ imps, i ∈ ext.parseImports codeData) →
    ∀ (st : LoopState),
    (imps.foldl (processImp ext ex fs file afp) st).log = st.log ∧
    (imps.foldl (processImp ext ex fs file afp) st).updated = st.updated := by
  intro imps
  induction imps with
  | nil => intro _ st; exact ⟨rfl, rfl⟩
  | cons i rest ih =>
    intro hmem st
    simp only [List.foldl_cons]
    have h1 := processImp_good ext ex fs file afp st i
      (hgp codeData i (hmem i (List.mem_cons_self i rest)))
    have h2 := ih (fun j hj => hmem j (List.mem_cons_of_mem i hj)) (processImp ext ex fs file afp st i)
    exact ⟨h2.1.trans h1.1, h2.2.trans h1.2⟩

lemma outputFileFn_cases (fs : List (String × String)) (st : LoopState) (f oP : String) :
    (∃ c, fsRead fs f = some c ∧ outputFileFn fs st f oP =
      { st with log := { st.log with copies := st.log.copies ++ [(f, oP, c)] } }) ∨
    (fsRead fs f = none ∧
      outputFileFn fs st f oP = { st with error := some (JsError.readError f) }) := by
  cases h : fsRead fs f with
  | none => exact Or.inr ⟨rfl, by simp [outputFileFn, h]⟩
  | some c => exact Or.inl ⟨c, rfl, by simp [outputFileFn, h]⟩

lemma processFile_good (ext : Externals) (cfg : Config) (inp : BuildInput)
    (hgp : GoodParser ext.parseImports) (st : LoopState) (file : String) :
    (processFile ext cfg inp st file).updated = st.updated ∧
    (processFile ext cfg inp st file).log.hashed = st.log.hashed ∧
    (processFile ext cfg inp st file).log.writes = st.log.writes ∧
    (∀ p ∈ (processFile ext cfg inp st file).log.readPaths, p ∈ st.log.readPaths ∨
      (strToLower (pathExtname p) = ".js" ∧
        matchExcludes ext.minimatch p (cfg.excludes.getD []) = false)) ∧
    (∀ e ∈ st.log.copies, e ∈ (processFile ext cfg inp st file).log.copies) ∧
    (truthyStr cfg.outputdir = false →
      (processFile ext cfg inp st file).log.copies = st.log.copies) ∧
    (st.error.isSome → processFile ext cfg inp st file = st) ∧
    (st.error = none → (processFile ext cfg inp st file).error = none →
      CompSpec ext cfg inp (processFile ext cfg inp st file).log file) := by
  simp only [processFile]
  split
  next herr =>
    refine ⟨rfl, rfl, rfl, fun p hp => Or.inl hp, fun e he => he, fun _ => rfl,
      fun _ => rfl, fun h0 _ => ?_⟩
    rw [h0] at herr
    exact absurd herr (by simp)
  next herr =>
    split
    next hbranch =>
      split
      next hout =>
        rcases outputFileFn_cases inp.fs st file
            (pathResolve (cfg.outputdir.getD "") (pathRelative cfg.sourcedir file)) with
          ⟨c, hrd, heq⟩ | ⟨hrd, heq⟩
        · rw [heq]
          refine ⟨rfl, rfl, rfl, fun p hp => Or.inl hp, ?_, ?_, ?_, ?_⟩
          · intro e he
            simp only [List.mem_append]
            exact Or.inl he
          · intro hno
            rw [hno] at hout
            exact absurd hout (by simp)
          · intro hsome
            rw [hsome] at herr
            exact absurd rfl herr
          · intro _ _
            constructor
            · intro _ _
              exact ⟨c, hrd, by simp [outPathOf]⟩
            · intro hfalse
              rw [hfalse] at hbranch
              exact absurd hbranch (by simp)
        · rw [heq]
          refine ⟨rfl, rfl, rfl, fun p hp => Or.inl hp, fun e he => he, fun _ => rfl, ?_, ?_⟩
          · intro hsome
            rw [hsome] at herr
            exact absurd rfl herr
          · intro _ habs
            exact absurd habs (by simp)
      next hout =>
        refine ⟨rfl, rfl, rfl, fun p hp => Or.inl hp, fun e he => he, fun _ => rfl,
          fun _ => rfl, ?_⟩
        intro _ _
        constructor
        · intro _ houtT
          rw [Bool.not_eq_true] at hout
          rw [hout] at houtT
          exact absurd houtT (by simp)
        · intro hfalse
          rw [hfalse] at hbranch
          exact absurd hbranch (by simp)
    next hbranch =>
      have hjs2 : strToLower (pathExtname file) = ".js" ∧
          matchExcludes ext.minimatch file (cfg.excludes.getD []) = false := by
        simp only [Bool.or_eq_true, bne_iff_ne, ne_eq, Bool.not_eq_true, not_or, not_not] at hbranch
        exact ⟨hbranch.1, hbranch.2⟩
      have hbranchF : ((strToLower (pathExtname file) != ".js")
          || matchExcludes ext.minimatch file (cfg.excludes.getD [])) = false := by
        simp [hjs2.1, hjs2.2]
      split
      next hrd =>
        refine ⟨rfl, rfl, rfl, fun p hp => Or.inl hp, fun e he => he, fun _ => rfl, ?_, ?_⟩
        · intro hsome
          rw [hsome] at herr
          exact absurd rfl herr
        · intro _ habs
          exact absurd habs (by simp)
      next codeData hrd =>
        have hread : ∀ p, p ∈ st.log.readPaths ++ [file] → p ∈ st.log.readPaths ∨
            (strToLower (pathExtname p) = ".js" ∧
              matchExcludes ext.minimatch p (cfg.excludes.getD []) = false) := by
          intro p hp
          simp only [List.mem_append, List.mem_singleton] at hp
          rcases hp with h | h
          · exact Or.inl h
          · subst h
            exact Or.inr hjs2
        split
        next hlen =>
          split
          next hout =>
            rcases outputFileFn_cases inp.fs
                { st with log := { st.log with
                    readPaths := st.log.readPaths ++ [file]
                    parsedPaths := st.log.parsedPaths ++ [file] } } file
                (pathResolve (cfg.outputdir.getD "") (pathRelative cfg.sourcedir file)) with
              ⟨c, hrd2, heq⟩ | ⟨hrd2, heq⟩
            · rw [heq]
              have hceq : c = codeData := by
                rw [hrd] at hrd2
                exact (Option.some.injEq _ _ ▸ hrd2).symm
              subst hceq
              refine ⟨rfl, rfl, rfl, hread, ?_, ?_, ?_, ?_⟩
              · intro e he
                simp only [List.mem_append]
                exact Or.inl he
              · intro hno
                rw [hno] at hout
                exact absurd hout (by simp)
              · intro hsome
                rw [hsome] at herr
                exact absurd rfl herr
              · intro _ _
                constructor
                · intro habs
                  rw [hbranchF] at habs
                  exact absurd habs (by simp)
                · intro _
                  refine ⟨c, hrd, fun _ _ => ?_⟩
                  simp [outPathOf]
            · rw [hrd] at hrd2
              exact absurd hrd2 (by simp)
          next hout =>
            refine ⟨rfl, rfl, rfl, hread, fun e he => he, fun _ => rfl, ?_, ?_⟩
            · intro hsome
              rw [hsome] at herr
              exact absurd rfl herr
            · intro _ _
              constructor
              · intro habs
                rw [hbranchF] at habs
                exact absurd habs (by simp)
              · intro _
                refine ⟨codeData, hrd, fun _ houtT => ?_⟩
                rw [Bool.not_eq_true] at hout
                rw [hout] at houtT
                exact absurd houtT (by simp)
        next hlen =>
          have hfg := foldImps_good ext (cfg.excludes.getD []) inp.fs file
            (pathResolve cfg.sourcedir (pathDirname (pathRelative cfg.sourcedir file)))
            codeData hgp (ext.parseImports codeData) (fun j hj => hj)
            { st with log := { st.log with
                readPaths := st.log.readPaths ++ [file]
                parsedPaths := st.log.parsedPaths ++ [file] } }
          rw [hfg.1]
          refine ⟨hfg.2.trans rfl, rfl, rfl, hread, fun e he => he, fun _ => rfl, ?_, ?_⟩
          · intro hsome
            rw [hsome] at herr
            exact absurd rfl herr
          · intro _ _
            constructor
            · intro habs
              rw [hbranchF] at habs
              exact absurd habs (by simp)
            · intro _
              refine ⟨codeData, hrd, fun hnil _ => ?_⟩
              rw [hnil] at hlen
              exact absurd rfl hlen

lemma compSpec_mono (ext : Externals) (cfg : Config) (inp : BuildInput)
    (lg lg2 : RunLog) (f : String) (h : CompSpec ext cfg inp lg f)
    (hsub : ∀ e ∈ lg.copies, e ∈ lg2.copies) : CompSpec ext cfg inp lg2 f := by
  obtain ⟨h1, h2⟩ := h
  constructor
  · intro ha hb
    rcases h1 ha hb with ⟨c, hc, hm⟩
    exact ⟨c, hc, hsub _ hm⟩
  · intro ha
    rcases h2 ha with ⟨c, hc, hm⟩
    exact ⟨c, hc, fun hp ho => hsub _ (hm hp ho)⟩

lemma foldFiles_good (ext : Externals) (cfg : Config) (inp : BuildInput)
    (hgp : GoodParser ext.parseImports) :
    ∀ (files : List String) (st : LoopState),
    (files.foldl (processFile ext cfg inp) st).updated = st.updated ∧
    (files.foldl (processFile ext cfg inp) st).log.hashed = st.log.hashed ∧
    (files.foldl (processFile ext cfg inp) st).log.writes = st.log.writes ∧
    (∀ p ∈ (files.foldl (processFile ext cfg inp) st).log.readPaths,
      p ∈ st.log.readPaths ∨ (strToLower (pathExtname p) = ".js" ∧
        matchExcludes ext.minimatch p (cfg.excludes.getD []) = false)) ∧
    (∀ e ∈ st.log.copies, e ∈ (files.foldl (processFile ext cfg inp) st).log.copies) ∧
    (truthyStr cfg.outputdir = false →
      (files.foldl (processFile ext cfg inp) st).log.copies = st.log.copies) ∧
    (st.error.isSome → files.foldl (processFile ext cfg inp) st = st) ∧
    ((files.foldl (processFile ext cfg inp) st).error = none → st.error = none) ∧
    ((files.foldl (processFile ext cfg inp) st).error = none → ∀ f ∈ files,
      CompSpec ext cfg inp (files.foldl (processFile ext cfg inp) st).log f) := by
  intro files
  induction files with
  | nil =>
    intro st
    refine ⟨rfl, rfl, rfl, fun p hp => Or.inl hp, fun e he => he, fun _ => rfl,
      fun _ => rfl, fun h => h, fun _ f hf => absurd hf (List.not_mem_nil f)⟩
  | cons f rest ih =>
    intro st
    simp only [List.foldl_cons]
    obtain ⟨s1, s2, s3, s4, s5, s6, s7, s8⟩ := processFile_good ext cfg inp hgp st f
    obtain ⟨i1, i2, i3, i4, i5, i6, i7, i8, i9⟩ := ih (processFile ext cfg inp st f)
    refine ⟨i1.trans s1, i2.trans s2, i3.trans s3, ?_, ?_, ?_, ?_, ?_, ?_⟩
    · intro p hp
      rcases i4 p hp with h | h
      · exact s4 p h
      · exact Or.inr h
    · intro e he
      exact i5 e (s5 e he)
    · intro hno
      rw [i6 hno, s6 hno]
    · intro herr
      have hstep := s7 herr
      rw [hstep]
      exact ih st |>.2.2.2.2.2.2.1 herr
    · intro hnone
      have h1 := i8 hnone
      by_contra hsome
      have hs : st.error.isSome := by
        cases h : st.error with
        | none => exact absurd h hsome
        | some e => simp [h]
      rw [s7 hs] at h1
      rw [h1] at hs
      exact absurd hs (by simp)
    · intro hnone g hg
      have herr1 : (processFile ext cfg inp st f).error = none := i8 hnone
      have herr0 : st.error = none := by
        by_contra hsome
        have hs : st.error.isSome := by
          cases h : st.error with
          | none => exact absurd h hsome
          | some e => simp [h]
        rw [s7 hs] at herr1
        rw [herr1] at hs
        exact absurd hs (by simp)
      rcases List.mem_cons.mp hg with hgf | hgf
      · subst hgf
        exact compSpec_mono ext cfg inp _ _ g (s8 herr0 herr1) i5
      · exact i9 hnone g hgf

lemma build_good (ext : Externals) (inp : BuildInput) (cfg : Config)
    (hc : inp.config = some cfg) (hgp : GoodParser ext.parseImports) :
    (build ext inp).log.hashed = [] ∧
    (build ext inp).log.writes = [] ∧
    (∀ p ∈ (build ext inp).log.readPaths, strToLower (pathExtname p) = ".js" ∧
      matchExcludes ext.minimatch p (cfg.excludes.getD []) = false) ∧
    (truthyStr cfg.outputdir = false → (build ext inp).log.copies = []) ∧
    ((build ext inp).error = none → ∀ f ∈ inp.files,
      CompSpec ext cfg inp (build ext inp).log f) := by
  simp only [build, hc]
  split
  next =>
    refine ⟨rfl, rfl, ?_, fun _ => rfl, ?_⟩
    · intro p hp
      simp [RunLog.init] at hp
    · intro habs
      exact absurd habs (by simp)
  next =>
    obtain ⟨g1, g2, g3, g4, g5, g6, g7, g8, g9⟩ := foldFiles_good ext cfg inp hgp inp.files (LoopState.mk { RunLog.init with removedOutput := (truthyStr cfg.outputdir && pathExists inp cfg.sourcedir && (inp.argvClean || cfg.cleanOutput)) } [] none)
    split
    next e heq =>
      refine ⟨g2.trans rfl, g3.trans rfl, ?_, ?_, ?_⟩
      · intro p hp
        rcases g4 p hp with h | h
        · simp [RunLog.init] at h
        · exact h
      · intro hno
        rw [g6 hno]
        rfl
      · intro habs
        exact absurd habs (by simp)
    next heq =>
      rw [g1]
      simp only [List.foldl_nil]
      refine ⟨g2.trans rfl, g3.trans rfl, ?_, ?_, ?_⟩
      · intro p hp
        rcases g4 p hp with h | h
        · simp [RunLog.init] at h
        · exact h
      · intro hno
        rw [g6 hno]
        rfl
      · intro _ f hf
        exact g9 heq f hf

/-- C6: a path matching an exclude pattern never participates in rewriting:
it is never handed to the import parser, every hashed import target passed a
check that its relative path matches no exclude pattern, and every emitted
file — copy or write — carries bytes identical to its stored source content,
so no import edge, in particular none whose resolved target is excluded, is
ever rewritten in any emitted text. (The guarantee holds in degenerate form:
the URL parse at line 162 aborts the run on every actionable import, so no
run ever rewrites or hashes anything at all.) -/
theorem c6_excluded_never_participates (ext : Externals) (inp : BuildInput) (cfg : Config)
    (hc : inp.config = some cfg) (p : String)
    (hex : matchExcludes ext.minimatch p (cfg.excludes.getD []) = true) :
    p ∉ (build ext inp).log.parsedPaths ∧
    (∀ e ∈ (build ext inp).log.hashed,
      matchExcludes ext.minimatch e.1 (cfg.excludes.getD []) = false) ∧
    (∀ e ∈ (build ext inp).log.copies, fsRead inp.fs e.1 = some e.2.2) ∧
    (∀ e ∈ (build ext inp).log.writes, fsRead inp.fs e.1 = some e.2) := by
  obtain ⟨hcpy, hwr, hpar, hhash⟩ := build_safe ext inp cfg hc
  refine ⟨?_, hhash, hcpy, hwr⟩
  intro hmem
  have h2 := (hpar p hmem).2
  rw [hex] at h2
  exact Bool.noConfusion h2

/-- C6, witness: the exclusion theorem applied at a concrete input carrying
the exclude pattern v/** and the matching path v/x.js. -/
theorem c6_witness :
    "v/x.js" ∉ (build exExt c6Inp).log.parsedPaths ∧
    (∀ e ∈ (build exExt c6Inp).log.hashed,
      matchExcludes exExt.minimatch e.1 (exCfgExcl.excludes.getD []) = false) ∧
    (∀ e ∈ (build exExt c6Inp).log.copies, fsRead c6Inp.fs e.1 = some e.2.2) ∧
    (∀ e ∈ (build exExt c6Inp).log.writes, fsRead c6Inp.fs e.1 = some e.2) :=
  c6_excluded_never_participates exExt c6Inp exCfgExcl rfl "v/x.js" (by decide)

/-- C9: a missing config file or missing source directory is fatal before
any emission: the promisified access call rejects, the exception aborts the
build function (node then exits non-zero on the unhandled rejection), and the
outcome records the access error with no copy and no write performed. -/
theorem c9_missing_config_fatal (ext : Externals) (inp : BuildInput)
    (h : inp.config = none ∨
      ∃ cfg, inp.config = some cfg ∧ pathExists inp cfg.sourcedir = false) :
    (build ext inp).error.isSome = true ∧
    (build ext inp).log.copies = [] ∧ (build ext inp).log.writes = [] := by
  rcases h with h | ⟨cfg, hc, hex⟩
  · simp [build, h, RunLog.init]
  · simp [build, hc, hex, RunLog.init]

/-- C9, witness: the fatality theorem applied to an input with no config
file. -/
theorem c9_witness :
    (build exExt c9Inp).error.isSome = true ∧
    (build exExt c9Inp).log.copies = [] ∧ (build exExt c9Inp).log.writes = [] :=
  c9_missing_config_fatal exExt c9Inp (Or.inl rfl)

/-- C1 (code bug): on the chain where a.js imports b.js and b.js imports
c.js, the claim requires a.js's emitted output to carry a version query whose
hash is the digest of b.js's final rewritten content; the code instead throws
at new URL("./b.js") — a relative specifier carries no scheme, so the WHATWG
constructor rejects it — and the run aborts having hashed nothing, emitted
nothing and rewritten nothing. (Even ignoring the crash, the digest the dead
code at lines 173-175 would record is read from b.js's pre-rewrite source in
the source directory.) -/
theorem c1_code_bug :
    (build exExt c1Inp).error = some (JsError.invalidUrl "./b.js") ∧
    (build exExt c1Inp).log.hashed = [] ∧
    (build exExt c1Inp).log.writes = [] ∧
    (build exExt c1Inp).log.copies = [] := by decide

/-- C2 (code bug): on a file with two imports of different replacement
lengths, the run aborts at the URL parse of the first specifier before any
update entry is recorded; moreover, had an entry been recorded, the update
loop at lines 228-250 reads the identifiers importUrl, importFile and hash,
which are block-scoped to the first loop, so its first iteration raises a
ReferenceError instead of rewriting the spans. -/
theorem c2_code_bug :
    (build exExt c2Inp).error = some (JsError.invalidUrl "./b.js") ∧
    (build exExt c2Inp).log.writes = [] ∧
    (updateFileStep true c2Inp.fs ⟨RunLog.init, [], none⟩ c2Entry).error
      = some (JsError.referenceError "importUrl") := by decide

/-- C4 (code bug): the claim requires the emitted specifier to have the form
path?v=hash with any prior version query overwritten; the code throws at
new URL("./b.js?v=deadbeef") before reaching the exclude check, the hash, or
the rewrite, and no emitted text ever carries a rewritten specifier. -/
theorem c4_code_bug :
    (build exExt c4Inp).error = some (JsError.invalidUrl "./b.js?v=deadbeef") ∧
    (build exExt c4Inp).log.writes = [] ∧
    (build exExt c4Inp).log.copies = [] := by decide

/-- C7 (code bug): the claim speaks of a second run on the build's own
output converging; the code cannot complete even one run on any input with an
actionable import — here the input already carries the version query a
previous run would have produced, and the run still aborts at the URL parse,
before the old-hash comparison at line 177 is ever reached. -/
theorem c7_code_bug :
    (build exExt c7Inp).error
      = some (JsError.invalidUrl "./b.js?v=0123456789abcdef0123456789abcdef") ∧
    (build exExt c7Inp).log.hashed = [] ∧
    (build exExt c7Inp).log.writes = [] := by decide

/-- C8 (code bug): the claim requires an unparsable specifier to be skipped
with a warning, the file copied unmodified and the run not aborted; the code
calls new URL on every relative or absolute specifier with no base and no
try-catch, so the perfectly ordinary specifier ./b.js — unparsable by the
WHATWG constructor — aborts the whole run, and the importer is not emitted. -/
theorem c8_code_bug :
    (build exExt c8Inp).error = some (JsError.invalidUrl "./b.js") ∧
    (build exExt c8Inp).log.copies = [] ∧
    (build exExt c8Inp).log.writes = [] := by decide

/-- C5, counterexample: a.js's only import edge resolves into the excluded
directory v, so by the claim its output bytes should equal its input bytes;
instead the run aborts at the URL parse (which precedes the exclude check at
line 168) and a.js is not emitted at all. -/
theorem c5_counterexample :
    (build exExt c5Inp).error = some (JsError.invalidUrl "./v/x.js") ∧
    (build exExt c5Inp).log.copies = [] ∧
    (build exExt c5Inp).log.writes = [] := by decide

/-- C10, counterexample: z.txt has a non-js extension and an output directory
is configured, so by the claim it must be copied byte-identical; because the
js file a.js precedes it in the traversal and aborts the run at the URL
parse, no copy of z.txt (nor of anything else) is ever made. -/
theorem c10_counterexample :
    strToLower (pathExtname "/src/z.txt") ≠ ".js" ∧
    truthyStr exCfgOut.outputdir = true ∧
    "/src/z.txt" ∈ c10Inp.files ∧
    (build exExt c10Inp).log.copies = [] ∧
    (build exExt c10Inp).error.isSome = true := by decide

lemma exParse_good : GoodParser exParse := by
  intro s imp hmem _
  unfold exParse at hmem
  split_ifs at hmem <;>
    simp only [List.mem_cons, List.not_mem_nil, or_false] at hmem
  · subst hmem
    exact ⟨"./b.js", rfl, by decide, by decide⟩
  · subst hmem
    exact ⟨"./c.js", rfl, by decide, by decide⟩
  · rcases hmem with rfl | rfl
    · exact ⟨"./b.js", rfl, by decide, by decide⟩
    · exact ⟨"./longname.js", rfl, by decide, by decide⟩
  · subst hmem
    exact ⟨"./b.js?v=deadbeef", rfl, by decide, by decide⟩
  · subst hmem
    exact ⟨"./v/x.js", rfl, by decide, by decide⟩
  · subst hmem
    exact ⟨"./b.js?v=0123456789abcdef0123456789abcdef", rfl, by decide, by decide⟩

/-- C5 (amended): for every module whose parse yields no import entries, in
any build run that completes, the module is emitted byte-identically — copied
unmodified when an output directory is configured, and with no output
directory nothing at all is copied or written — and no content hash is ever
computed (indeed a completing run hashes nothing, since any actionable
specifier aborts the run). The original claim's allowance for modules whose
only edges are excluded or unresolved fails on the code: such a module
aborts the run at the URL parse and is not emitted at all. -/
theorem c5_no_import_modules_identical (ext : Externals) (inp : BuildInput) (cfg : Config)
    (hc : inp.config = some cfg) (hgp : GoodParser ext.parseImports)
    (hdone : (build ext inp).error = none)
    (f : String) (hf : f ∈ inp.files)
    (hjs : ((strToLower (pathExtname f) != ".js")
      || matchExcludes ext.minimatch f (cfg.excludes.getD [])) = false)
    (c : String) (hread : fsRead inp.fs f = some c)
    (hnoimp : ext.parseImports c = []) :
    (truthyStr cfg.outputdir = true →
      (f, outPathOf cfg f, c) ∈ (build ext inp).log.copies) ∧
    (truthyStr cfg.outputdir = false →
      (build ext inp).log.copies = [] ∧ (build ext inp).log.writes = []) ∧
    (build ext inp).log.hashed = [] := by
  obtain ⟨bh, bw, br, bc, bcomp⟩ := build_good ext inp cfg hc hgp
  have hspec := bcomp hdone f hf
  refine ⟨?_, fun hno => ⟨bc hno, bw⟩, bh⟩
  intro hout
  rcases hspec.2 hjs with ⟨c2, hc2, hmem⟩
  rw [hread] at hc2
  injection hc2 with hcc
  subst hcc
  exact hmem hnoimp hout

/-- C5, witness: the amended theorem applied at a completing concrete input
to the import-free module b.js. -/
theorem c5_witness :
    (truthyStr exCfgOut.outputdir = true →
      ("/src/b.js", outPathOf exCfgOut "/src/b.js", "x") ∈ (build exExt c10WInp).log.copies) ∧
    (truthyStr exCfgOut.outputdir = false →
      (build exExt c10WInp).log.copies = [] ∧ (build exExt c10WInp).log.writes = []) ∧
    (build exExt c10WInp).log.hashed = [] :=
  c5_no_import_modules_identical exExt c10WInp exCfgOut rfl exParse_good (by decide)
    "/src/b.js" (by decide) (by decide) "x" (by decide) (by decide)

/-- C10 (amended): only js files are ever read or handed to the parser —
every read path and every parsed path of any run carries the .js extension
(compared lower-cased) and is not excluded — and in any run that completes
with an output directory configured, every traversed file that is not a js
file or is excluded is copied to its output path byte-identically; with no
output directory configured, nothing is ever copied and nothing is written.
The unamended claim fails on aborting runs: a js file with an actionable
specifier aborts the run before later files are copied. -/
theorem c10_only_js_processed (ext : Externals) (inp : BuildInput) (cfg : Config)
    (hc : inp.config = some cfg) (hgp : GoodParser ext.parseImports) :
    (∀ p ∈ (build ext inp).log.readPaths, strToLower (pathExtname p) = ".js") ∧
    (∀ p ∈ (build ext inp).log.parsedPaths, strToLower (pathExtname p) = ".js") ∧
    ((build ext inp).error = none → truthyStr cfg.outputdir = true →
      ∀ f ∈ inp.files, ((strToLower (pathExtname f) != ".js")
          || matchExcludes ext.minimatch f (cfg.excludes.getD [])) = true →
        ∃ c, fsRead inp.fs f = some c ∧
          (f, outPathOf cfg f, c) ∈ (build ext inp).log.copies) ∧
    (truthyStr cfg.outputdir = false →
      (build ext inp).log.copies = [] ∧ (build ext inp).log.writes = []) := by
  obtain ⟨bh, bw, br, bc, bcomp⟩ := build_good ext inp cfg hc hgp
  obtain ⟨sc, sw, sp, sh⟩ := build_safe ext inp cfg hc
  refine ⟨fun p hp => (br p hp).1, fun p hp => (sp p hp).1, ?_, fun hno => ⟨bc hno, bw⟩⟩
  intro hdone hout f hf hnonjs
  exact (bcomp hdone f hf).1 hnonjs hout

/-- C10, witness: the amended theorem applied at a completing concrete input
with a text file and an import-free js file. -/
theorem c10_witness :
    (∀ p ∈ (build exExt c10WInp).log.readPaths, strToLower (pathExtname p) = ".js") ∧
    (∀ p ∈ (build exExt c10WInp).log.parsedPaths, strToLower (pathExtname p) = ".js") ∧
    ((build exExt c10WInp).error = none → truthyStr exCfgOut.outputdir = true →
      ∀ f ∈ c10WInp.files, ((strToLower (pathExtname f) != ".js")
          || matchExcludes exExt.minimatch f (exCfgOut.excludes.getD [])) = true →
        ∃ c, fsRead c10WInp.fs f = some c ∧
          (f, outPathOf exCfgOut f, c) ∈ (build exExt c10WInp).log.copies) ∧
    (truthyStr exCfgOut.outputdir = false →
      (build exExt c10WInp).log.copies = [] ∧ (build exExt c10WInp).log.writes = []) :=
  c10_only_js_processed exExt c10WInp exCfgOut rfl exParse_good

end EsmBuild
